import Mathlib

/-!
# Retention selection of `findDeployments.go`

A shallow embedding of the pure core of `src/findDeployments.go`
(`CreateHashMap`, `SortHashMap`, `FindMostRecentDeployments`,
`PopulateObjectsToDelete`) together with the library calls it relies on
(`strings.SplitN`, `sort.Sort`, Go maps and their `range` order).

Conventions of the embedding:

* a Go `string` is a Lean `String`; the only separator the program uses is
  `"/"`, a single byte that never occurs inside a multi-byte UTF-8 sequence, so
  splitting on characters and splitting on bytes agree;
* a `time.Time` is the instant it denotes, an `Int`; `Before` is `<` and
  `Compare` is the three-way comparison of instants;
* a `map[string]time.Time` is a list of entries with pairwise distinct keys;
  only `mapGet` and the set of entries are observable, the position of an entry
  in the list is not;
* `for k, v := range m` visits the entries in an order Go leaves unspecified:
  the order is an explicit argument;
* `log.Fatalf` and run-time panics end the process: functions that can reach
  them return `Except Failure _`;
* the package variable `objectsToDelete` is threaded through
  `PopulateObjectsToDelete` as an explicit state.
-/

namespace FindDeployments

/-! ## Library model: `strings` -/

/-- Go `strings.Index(s, substr)` from position `i` on: the offset of the first
instance of `sep` (Go returns `-1` where this returns `none`). -/
def indexFrom (sep : List Char) : List Char → Nat → Option Nat
  | [], i => if sep = [] then some i else none
  | c :: s, i => if sep.isPrefixOf (c :: s) then some i else indexFrom sep s (i + 1)

/-- Go `strings.Index(s, substr)`. -/
def Index (s sep : List Char) : Option Nat := indexFrom sep s 0

/-- The loop of `strings.genSplit`: `for i < n { m := Index(s, sep); if m < 0
{ break }; a[i] = s[:m+sepSave]; s = s[m+len(sep):]; i++ }; a[i] = s`.  The first
argument is the number of rounds still allowed, `n - i`. -/
def splitLoop (sep : List Char) (sepSave : Nat) : Nat → List Char → List (List Char)
  | 0, s => [s]
  | r + 1, s =>
    match Index s sep with
    | none => [s]
    | some m => s.take (m + sepSave) :: splitLoop sep sepSave r (s.drop (m + sep.length))

/-- Go `strings.genSplit(s, sep, sepSave, n)` for a non-empty separator and
`n ≥ 0` (the program calls it with `sep = "/"` and `n = 2` only): `n == 0`
gives `nil`; `n` is capped at `len(s) + 1`; then at most `n - 1` cuts are made. -/
def genSplit (s sep : List Char) (sepSave n : Nat) : List (List Char) :=
  if n = 0 then []
  else
    let n1 := if n > s.length + 1 then s.length + 1 else n
    splitLoop sep sepSave (n1 - 1) s

/-- Go `strings.SplitN(s, sep, n)` is `genSplit(s, sep, 0, n)`. -/
def SplitN (s sep : String) (n : Nat) : List String :=
  (genSplit s.data sep.data 0 n).map String.mk

/-- The expression `strings.SplitN(*object.Key, "/", 2)[0]` of `CreateHashMap`
(line 93) and `PopulateObjectsToDelete` (line 146).  Index `0` is always in
range (`SplitN_index_zero`), so the fallback value is never produced. -/
def PrefixID (key : String) : String := (SplitN key "/" 2).headD ""

/-! ## Data model -/

/-- A `time.Time`, identified with the instant it denotes. -/
abbrev Time := Int

/-- Go `t.Compare(u)`: `-1` if `t` is before `u`, `+1` if it is after, `0` if they
denote the same instant. -/
def Compare (t u : Time) : Int := if t < u then -1 else if u < t then 1 else 0

/-- Go `t.Before(u)`. -/
def Before (t u : Time) : Bool := decide (t < u)

/-- The two fields of the listing's `types.Object` that the program reads,
`*object.Key` and `*object.LastModified`.  Every element of an S3 listing
carries both, so the pointers are taken as already dereferenced. -/
structure S3Object where
  Key : String
  LastModified : Time
  deriving DecidableEq, Repr

/-- Source `type Object struct { Name string; LastModified time.Time }`. -/
structure Object where
  Name : String
  LastModified : Time
  deriving DecidableEq, Repr

/-- Source `type ByDate []Object`. -/
abbrev ByDate := List Object

/-- Source `func (o ByDate) Len() int`. -/
def ByDate.Len (o : ByDate) : Int := (o.length : Int)

/-- Source `func (o ByDate) Less(i, j int) bool`, as a relation between the two
elements `o[i]` and `o[j]`: `o[i].LastModified.Before(o[j].LastModified)`. -/
def Less (a b : Object) : Bool := Before a.LastModified b.LastModified

/-! ## Library model: maps, `range`, `sort.Sort`, slicing -/

/-- A `map[string]time.Time`: its entries; the keys are pairwise distinct
(`NodupKeys`), which `mapSet` preserves. -/
abbrev GoMap := List (String × Time)

/-- The keys of a map. -/
def keys (m : GoMap) : List String := m.map Prod.fst

/-- Well-formedness of a map value: no key occurs twice. -/
def NodupKeys (m : GoMap) : Prop := (keys m).Nodup

instance (m : GoMap) : Decidable (NodupKeys m) := by unfold NodupKeys; infer_instance

/-- Go `v, ok := m[k]`: `some v` when `ok`, `none` otherwise. -/
def mapGet : GoMap → String → Option Time
  | [], _ => none
  | (k1, v1) :: m, k => if k1 = k then some v1 else mapGet m k

/-- Go `m[k] = v`: replaces the entry of `k` if there is one, adds one otherwise. -/
def mapSet : GoMap → String → Time → GoMap
  | [], k, v => [(k, v)]
  | (k1, v1) :: m, k, v => if k1 = k then (k, v) :: m else (k1, v1) :: mapSet m k v

/-- The order in which `for k, v := range m` visits the entries of `m`.  Go
does not specify it; the program is run against an arbitrary choice. -/
abbrev RangeOrder := GoMap → List (String × Time)

/-- A range order is admissible when it visits every entry exactly once. -/
def RangeOrder.Admissible (range : RangeOrder) : Prop := ∀ m : GoMap, (range m).Perm m

/-- Go `sort.Sort(data)`: rearranges `data` so that no element is `Less` than an
element placed before it.  The library makes no promise on the relative order of
elements neither of which is `Less` than the other; the model keeps them in
their order of arrival (which is what the library does for at most 12 elements,
where it runs insertion sort).  As the arrival order is itself an arbitrary
`RangeOrder`, every sorted arrangement of the entries is still an outcome of
`SortHashMap` (`SortHashMap_reaches_every_sorted_arrangement`). -/
def sortSort (data : ByDate) : ByDate :=
  data.insertionSort (fun a b => Less b a = false)

/-- How a run ends when it does not return. -/
inductive Failure where
  /-- Go `log.Fatalf(msg)`: the message is logged and the process exits with status 1. -/
  | fatal (msg : String)
  /-- The run-time panic `slice bounds out of range`. -/
  | sliceBoundsOutOfRange
  deriving DecidableEq, Repr

deriving instance DecidableEq for Except

/-- The slice expression `s[:x]` on a slice whose capacity equals its length
(as made by `make(ByDate, len(keyMap))`): panics unless `0 ≤ x ≤ cap(s)`. -/
def sliceTo (s : ByDate) (x : Int) : Except Failure ByDate :=
  if x < 0 ∨ (s.length : Int) < x then .error .sliceBoundsOutOfRange
  else .ok (s.take x.toNat)

/-! ## The program -/

/-- The body of the loop of `CreateHashMap` (lines 93-105). -/
def createStep (keyMap : GoMap) (object : S3Object) : GoMap :=
  let pfx := PrefixID object.Key
  match mapGet keyMap pfx with
  | none => mapSet keyMap pfx object.LastModified
  | some currentValue =>
    if Compare currentValue object.LastModified = -1 then
      mapSet keyMap pfx object.LastModified
    else keyMap

/-- Source `func CreateHashMap(objects []types.Object) map[string]time.Time`. -/
def CreateHashMap (objects : List S3Object) : GoMap :=
  objects.foldl createStep []

/-- The composite literal `Object{k, v}` of `SortHashMap` (line 116). -/
def mkObject (kv : String × Time) : Object := { Name := kv.1, LastModified := kv.2 }

/-- Source `func SortHashMap(keyMap map[string]time.Time) ByDate`: the entries are
copied into a slice in range order, then `sort.Sort` is run on it. -/
def SortHashMap (keyMap : GoMap) (range : RangeOrder) : ByDate :=
  sortSort ((range keyMap).map mkObject)

/-- The body of the loop of `FindMostRecentDeployments` (lines 136-137), without
the line it prints. -/
def recordStep (mostRecentDeployments : GoMap) (k : Object) : GoMap :=
  mapSet mostRecentDeployments k.Name k.LastModified

/-- Source `func FindMostRecentDeployments(keyMapSorted ByDate, x int) map[string]time.Time`
(the lines it prints are not modelled). -/
def FindMostRecentDeployments (keyMapSorted : ByDate) (x : Int) : Except Failure GoMap :=
  if x = 0 then .error (.fatal "No Deployments selected.\nExiting...")
  else
    (if x < keyMapSorted.Len then sliceTo keyMapSorted x else .ok keyMapSorted).bind
      fun kept => .ok (kept.foldl recordStep [])

/-- The body of the loop of `PopulateObjectsToDelete` (lines 146-152), acting on
the package variable `objectsToDelete`. -/
def populateStep (recentDeployments : GoMap) (objectsToDelete : List String)
    (object : S3Object) : List String :=
  match mapGet recentDeployments (PrefixID object.Key) with
  | some _ => objectsToDelete
  | none => objectsToDelete ++ [object.Key]

/-- Source `func PopulateObjectsToDelete(objects []types.Object, recentDeployments
map[string]time.Time) []string`.  The first argument is the value of the package
variable `objectsToDelete` when the call starts; the result is its value when
the call ends, which is also the value the call returns. -/
def PopulateObjectsToDelete (objectsToDelete : List String) (objects : List S3Object)
    (recentDeployments : GoMap) : List String :=
  objects.foldl (populateStep recentDeployments) objectsToDelete

/-- Lines 177-180 of `main`, run in a fresh process (`objectsToDelete` is still
`nil`): the deletion plan computed for a listing and the `-deploys` flag. -/
def mainPlan (range : RangeOrder) (objects : List S3Object) (deploys : Int) :
    Except Failure (List String) :=
  (FindMostRecentDeployments (SortHashMap (CreateHashMap objects) range) deploys).bind
    fun recentDeployments => .ok (PopulateObjectsToDelete [] objects recentDeployments)

/-- Lines 177-179 of `main`: the retained deployments. -/
def mainRetained (range : RangeOrder) (objects : List S3Object) (deploys : Int) :
    Except Failure GoMap :=
  FindMostRecentDeployments (SortHashMap (CreateHashMap objects) range) deploys

/-! ## Notions used to state the properties -/

/-- The larger of two optional recencies; an absent one counts for nothing.
This is the merge "that takes the max per prefix" of two groupings, read at one
prefix. -/
def optMax : Option Time → Option Time → Option Time
  | none, b => b
  | some a, none => some a
  | some a, some b => some (max a b)

/-- The keys of the listing that are kept: those whose `PrefixID` is among the
retained prefixes. -/
def retainedKeys (objects : List S3Object) (retained : GoMap) : List String :=
  (objects.filter fun o => (mapGet retained (PrefixID o.Key)).isSome).map S3Object.Key

/-- The number of distinct `PrefixID`s of a listing. -/
def distinctPrefixCount (objects : List S3Object) : Nat :=
  ((objects.map fun o => PrefixID o.Key).dedup).length

/-! ## The order `sort.Sort` establishes is total and transitive -/

instance : IsTotal Object (fun a b => Less b a = false) :=
  ⟨fun a b => by
    simp only [Less, Before, decide_eq_false_iff_not, not_lt]
    exact le_total _ _⟩

instance : IsTrans Object (fun a b => Less b a = false) :=
  ⟨fun a b c => by
    simp only [Less, Before, decide_eq_false_iff_not, not_lt]
    exact le_trans⟩

/-! ## `strings.SplitN(key, "/", 2)[0]` -/

theorem takeWhile_cons_slash (t : List Char) :
    ('/' :: t).takeWhile (fun c => c != '/') = [] := by
  simp [List.takeWhile_cons]

theorem takeWhile_cons_other (c : Char) (t : List Char) (hc : c ≠ '/') :
    (c :: t).takeWhile (fun c => c != '/') = c :: t.takeWhile (fun c => c != '/') := by
  simp [List.takeWhile_cons, hc]

theorem indexFrom_slash_none (s : List Char) (i : Nat)
    (h : indexFrom ['/'] s i = none) : s.takeWhile (fun c => c != '/') = s := by
  induction s generalizing i with
  | nil => rfl
  | cons c t ih =>
    simp only [indexFrom, List.isPrefixOf] at h
    by_cases hc : '/' = c
    · subst hc; simp at h
    · have hc2 : c ≠ '/' := fun e => hc e.symm
      simp [hc] at h
      rw [takeWhile_cons_other c t hc2, ih _ h]

theorem indexFrom_slash_some (s : List Char) (i m : Nat)
    (h : indexFrom ['/'] s i = some m) :
    i ≤ m ∧ s.take (m - i) = s.takeWhile (fun c => c != '/') ∧
      ∃ rest, s = s.takeWhile (fun c => c != '/') ++ '/' :: rest := by
  induction s generalizing i with
  | nil => simp [indexFrom] at h
  | cons c t ih =>
    simp only [indexFrom, List.isPrefixOf] at h
    by_cases hc : '/' = c
    · subst hc
      simp at h
      subst h
      rw [takeWhile_cons_slash]
      simp
    · have hc2 : c ≠ '/' := fun e => hc e.symm
      simp [hc] at h
      obtain ⟨h1, h2, rest, h3⟩ := ih _ h
      rw [takeWhile_cons_other c t hc2]
      refine ⟨by omega, ?_, rest, ?_⟩
      · have : m - i = (m - (i + 1)) + 1 := by omega
        rw [this, List.take_succ_cons, h2]
      · rw [List.cons_append, ← h3]

theorem genSplit_slash_two (s : List Char) :
    ∃ tl, genSplit s ['/'] 0 2 = s.takeWhile (fun c => c != '/') :: tl := by
  cases s with
  | nil => exact ⟨[], by simp [genSplit, splitLoop]⟩
  | cons c t =>
    have hn : (if 2 > (c :: t).length + 1 then (c :: t).length + 1 else 2) - 1 = 1 := by
      simp
    simp only [genSplit, hn]
    simp only [splitLoop]
    cases h : Index (c :: t) ['/'] with
    | none => exact ⟨[], by simp [indexFrom_slash_none _ _ h]⟩
    | some m =>
      obtain ⟨_, h2, _⟩ := indexFrom_slash_some _ _ _ h
      rw [Nat.sub_zero] at h2
      exact ⟨_, by simp only [Nat.add_zero, h2]; rfl⟩

theorem takeWhile_ne_not_mem (s : List Char) :
    '/' ∉ s.takeWhile (fun c => c != '/') := by
  intro h
  have := List.mem_takeWhile_imp h
  simp at this

theorem takeWhile_slash_cases (s : List Char) :
    ('/' ∉ s ∧ s.takeWhile (fun c => c != '/') = s) ∨
    ('/' ∈ s ∧ ∃ rest, s = s.takeWhile (fun c => c != '/') ++ '/' :: rest) := by
  induction s with
  | nil => left; simp
  | cons c t ih =>
    by_cases hc : c = '/'
    · right; subst hc; rw [takeWhile_cons_slash]; simp
    · rw [takeWhile_cons_other c t hc]
      rcases ih with ⟨h1, h2⟩ | ⟨h1, rest, h2⟩
      · left
        exact ⟨by simp [h1, Ne.symm hc], by rw [h2]⟩
      · right
        refine ⟨by simp [h1], rest, ?_⟩
        rw [List.cons_append, ← h2]

theorem PrefixID_data (key : String) :
    (PrefixID key).data = key.data.takeWhile (fun c => c != '/') := by
  obtain ⟨tl, h⟩ := genSplit_slash_two key.data
  have : ("/" : String).data = ['/'] := rfl
  simp [PrefixID, SplitN, this, h]

theorem SplitN_index_zero (key : String) :
    (SplitN key "/" 2)[0]? = some (PrefixID key) := by
  obtain ⟨tl, h⟩ := genSplit_slash_two key.data
  have : ("/" : String).data = ['/'] := rfl
  simp [PrefixID, SplitN, this, h]


/-! ## Maps -/

theorem mapGet_mapSet_same (m : GoMap) (k : String) (v : Time) :
    mapGet (mapSet m k v) k = some v := by
  induction m with
  | nil => simp [mapSet, mapGet]
  | cons e m ih =>
    obtain ⟨k1, v1⟩ := e
    by_cases h : k1 = k
    · simp [mapSet, mapGet, h]
    · simp [mapSet, mapGet, h, ih]

theorem mapGet_mapSet_other (m : GoMap) (k p : String) (v : Time) (hp : k ≠ p) :
    mapGet (mapSet m k v) p = mapGet m p := by
  induction m with
  | nil => simp [mapSet, mapGet, hp]
  | cons e m ih =>
    obtain ⟨k1, v1⟩ := e
    by_cases h : k1 = k
    · subst h; simp [mapSet, mapGet, hp]
    · by_cases h2 : k1 = p
      · subst h2; simp [mapSet, mapGet, h]
      · simp [mapSet, mapGet, h, h2, ih]

theorem mapGet_eq_none_iff (m : GoMap) (k : String) :
    mapGet m k = none ↔ k ∉ keys m := by
  induction m with
  | nil => simp [mapGet, keys]
  | cons e m ih =>
    obtain ⟨k1, v1⟩ := e
    by_cases h : k1 = k
    · simp [mapGet, keys, h]
    · have h2 : ¬ k = k1 := fun e => h e.symm
      simpa [mapGet, keys, h, h2] using ih

theorem mapGet_some_mem (m : GoMap) (k : String) (v : Time) (h : mapGet m k = some v) :
    (k, v) ∈ m := by
  induction m with
  | nil => simp [mapGet] at h
  | cons e m ih =>
    obtain ⟨k1, v1⟩ := e
    by_cases hk : k1 = k
    · simp [mapGet, hk] at h; simp [hk, h]
    · simp [mapGet, hk] at h; simp [ih h]

theorem mem_mapGet (m : GoMap) (hm : NodupKeys m) (k : String) (v : Time) (h : (k, v) ∈ m) :
    mapGet m k = some v := by
  induction m with
  | nil => simp at h
  | cons e m ih =>
    obtain ⟨k1, v1⟩ := e
    have hm2 : k1 ∉ keys m ∧ NodupKeys m := by
      simpa [NodupKeys, keys] using hm
    rcases List.mem_cons.1 h with h1 | h1
    · simp only [Prod.mk.injEq] at h1
      simp [mapGet, h1.1, h1.2]
    · have hk : k1 ≠ k := by
        rintro rfl
        exact hm2.1 (List.mem_map.2 ⟨(k1, v), h1, rfl⟩)
      simp [mapGet, hk, ih hm2.2 h1]

theorem mapGet_eq_some_iff (m : GoMap) (hm : NodupKeys m) (k : String) (v : Time) :
    mapGet m k = some v ↔ (k, v) ∈ m :=
  ⟨mapGet_some_mem m k v, mem_mapGet m hm k v⟩

theorem mapSet_absent (m : GoMap) (k : String) (v : Time) (h : k ∉ keys m) :
    mapSet m k v = m ++ [(k, v)] := by
  induction m with
  | nil => rfl
  | cons e m ih =>
    obtain ⟨k1, v1⟩ := e
    have h2 : ¬ k1 = k ∧ k ∉ keys m := by
      constructor
      · rintro rfl; exact h (by simp [keys])
      · intro hin; exact h (by simp [keys] at hin ⊢; exact Or.inr hin)
    simp [mapSet, h2.1, ih h2.2]

theorem keys_mapSet_present (m : GoMap) (k : String) (v : Time) (h : k ∈ keys m) :
    keys (mapSet m k v) = keys m := by
  induction m with
  | nil => simp [keys] at h
  | cons e m ih =>
    obtain ⟨k1, v1⟩ := e
    by_cases hk : k1 = k
    · simp [mapSet, keys, hk]
    · have : k ∈ keys m := by
        have h3 : k = k1 ∨ k ∈ keys m := by simpa [keys] using h
        rcases h3 with h3 | h3
        · exact absurd h3.symm hk
        · exact h3
      have ih2 := ih this
      simp only [keys] at ih2
      simp [mapSet, keys, hk, ih2]

theorem NodupKeys_mapSet (m : GoMap) (hm : NodupKeys m) (k : String) (v : Time) :
    NodupKeys (mapSet m k v) := by
  by_cases h : k ∈ keys m
  · unfold NodupKeys; rw [keys_mapSet_present m k v h]; exact hm
  · rw [mapSet_absent m k v h]
    unfold NodupKeys keys at *
    rw [List.map_append, List.nodup_append]
    refine ⟨hm, by simp, ?_⟩
    intro a ha hb
    simp at hb
    subst hb
    exact h ha

theorem perm_of_mapGet_eq (m1 m2 : GoMap) (h1 : NodupKeys m1) (h2 : NodupKeys m2)
    (h : ∀ p, mapGet m1 p = mapGet m2 p) : m1.Perm m2 := by
  have n1 : m1.Nodup := List.Nodup.of_map _ h1
  have n2 : m2.Nodup := List.Nodup.of_map _ h2
  refine (List.perm_ext_iff_of_nodup n1 n2).2 ?_
  rintro ⟨k, v⟩
  rw [← mapGet_eq_some_iff m1 h1, ← mapGet_eq_some_iff m2 h2, h]

theorem mapGet_eq_of_perm (m1 m2 : GoMap) (h1 : NodupKeys m1) (h : m1.Perm m2) (p : String) :
    mapGet m1 p = mapGet m2 p := by
  have h2 : NodupKeys m2 := (List.Perm.nodup_iff (h.map Prod.fst)).1 h1
  cases e : mapGet m2 p with
  | none =>
    rw [mapGet_eq_none_iff] at e ⊢
    intro hin; exact e ((h.map Prod.fst).subset hin)
  | some v =>
    rw [mapGet_eq_some_iff _ h2] at e
    rw [mapGet_eq_some_iff _ h1]
    exact h.symm.subset e


/-! ## `CreateHashMap` -/

theorem optMax_none_right (a : Option Time) : optMax a none = a := by
  cases a <;> rfl

theorem optMax_comm (a b : Option Time) : optMax a b = optMax b a := by
  cases a <;> cases b <;> simp [optMax, max_comm]

theorem optMax_assoc (a b c : Option Time) :
    optMax (optMax a b) c = optMax a (optMax b c) := by
  cases a <;> cases b <;> cases c <;> simp [optMax, max_assoc]

theorem mapGet_createStep (m : GoMap) (o : S3Object) (p : String) :
    mapGet (createStep m o) p =
      if PrefixID o.Key = p then optMax (mapGet m p) (some o.LastModified) else mapGet m p := by
  unfold createStep
  by_cases hp : PrefixID o.Key = p
  · subst hp
    simp only [if_true]
    cases hg : mapGet m (PrefixID o.Key) with
    | none => simp [mapGet_mapSet_same, optMax]
    | some c =>
      simp only [Compare]
      by_cases hlt : c < o.LastModified
      · simp [hlt, mapGet_mapSet_same, optMax, max_eq_right (le_of_lt hlt)]
      · have hle : o.LastModified ≤ c := not_lt.1 hlt
        by_cases hgt : o.LastModified < c
        · simp [hlt, hgt, hg, optMax, max_eq_left hle]
        · simp [hlt, hgt, hg, optMax, max_eq_left hle]
  · simp only [hp, if_false]
    cases hg : mapGet m (PrefixID o.Key) with
    | none => simp [mapGet_mapSet_other _ _ _ _ hp]
    | some c =>
      simp only
      split
      · exact mapGet_mapSet_other _ _ _ _ hp
      · rfl

theorem mapGet_foldl_createStep (objects : List S3Object) (m : GoMap) (p : String) :
    mapGet (objects.foldl createStep m) p =
      optMax (mapGet m p) (mapGet (CreateHashMap objects) p) := by
  induction objects generalizing m with
  | nil => simp [CreateHashMap, mapGet, optMax_none_right]
  | cons o t ih =>
    simp only [CreateHashMap, List.foldl_cons]
    rw [ih (createStep m o), ih (createStep [] o), mapGet_createStep, mapGet_createStep]
    by_cases hp : PrefixID o.Key = p
    · simp only [hp, if_true, mapGet]
      rw [optMax_assoc]
      rfl
    · simp only [hp, if_false, mapGet]
      rfl

theorem mapGet_CreateHashMap_cons (o : S3Object) (t : List S3Object) (p : String) :
    mapGet (CreateHashMap (o :: t)) p =
      optMax (if PrefixID o.Key = p then some o.LastModified else none)
        (mapGet (CreateHashMap t) p) := by
  have h := mapGet_foldl_createStep t (createStep [] o) p
  simp only [CreateHashMap, List.foldl_cons] at h ⊢
  rw [h, mapGet_createStep]
  by_cases hp : PrefixID o.Key = p <;> simp [hp, mapGet, optMax]

theorem mapGet_CreateHashMap_append (a b : List S3Object) (p : String) :
    mapGet (CreateHashMap (a ++ b)) p =
      optMax (mapGet (CreateHashMap a) p) (mapGet (CreateHashMap b) p) := by
  have h := mapGet_foldl_createStep b (CreateHashMap a) p
  simpa [CreateHashMap, List.foldl_append] using h

theorem mapGet_CreateHashMap_perm {l1 l2 : List S3Object} (h : l1.Perm l2) (p : String) :
    mapGet (CreateHashMap l1) p = mapGet (CreateHashMap l2) p := by
  induction h with
  | nil => rfl
  | cons o _ ih => rw [mapGet_CreateHashMap_cons, mapGet_CreateHashMap_cons, ih]
  | swap a b l =>
    simp only [mapGet_CreateHashMap_cons]
    rw [← optMax_assoc, ← optMax_assoc, optMax_comm (if PrefixID b.Key = p then _ else _)]
  | trans _ _ ih1 ih2 => rw [ih1, ih2]

theorem NodupKeys_createStep (m : GoMap) (hm : NodupKeys m) (o : S3Object) :
    NodupKeys (createStep m o) := by
  unfold createStep
  simp only
  split
  · exact NodupKeys_mapSet m hm _ _
  · split
    · exact NodupKeys_mapSet m hm _ _
    · exact hm

theorem NodupKeys_foldl_createStep (objects : List S3Object) (m : GoMap) (hm : NodupKeys m) :
    NodupKeys (objects.foldl createStep m) := by
  induction objects generalizing m with
  | nil => exact hm
  | cons o t ih => exact ih _ (NodupKeys_createStep m hm o)

theorem NodupKeys_CreateHashMap (objects : List S3Object) :
    NodupKeys (CreateHashMap objects) :=
  NodupKeys_foldl_createStep objects [] (by simp [NodupKeys, keys])

theorem CreateHashMap_none_iff (objects : List S3Object) (p : String) :
    mapGet (CreateHashMap objects) p = none ↔ ∀ o ∈ objects, PrefixID o.Key ≠ p := by
  induction objects with
  | nil => simp [CreateHashMap, mapGet]
  | cons o t ih =>
    rw [mapGet_CreateHashMap_cons]
    by_cases hp : PrefixID o.Key = p
    · cases hg : mapGet (CreateHashMap t) p <;> simp [hp, optMax]
    · simp only [hp, if_false, optMax, List.mem_cons, forall_eq_or_imp, ne_eq, not_false_eq_true,
        true_and]
      exact ih

theorem CreateHashMap_some_max (objects : List S3Object) (p : String) (v : Time)
    (h : mapGet (CreateHashMap objects) p = some v) :
    (∃ o ∈ objects, PrefixID o.Key = p ∧ o.LastModified = v) ∧
      ∀ o ∈ objects, PrefixID o.Key = p → o.LastModified ≤ v := by
  induction objects generalizing v with
  | nil => simp [CreateHashMap, mapGet] at h
  | cons o t ih =>
    rw [mapGet_CreateHashMap_cons] at h
    by_cases hp : PrefixID o.Key = p
    · simp only [hp, if_true] at h
      cases hg : mapGet (CreateHashMap t) p with
      | none =>
        rw [hg] at h
        simp only [optMax, Option.some.injEq] at h
        have hn := (CreateHashMap_none_iff t p).1 hg
        refine ⟨⟨o, by simp, hp, h⟩, ?_⟩
        intro o2 ho2 hp2
        rcases List.mem_cons.1 ho2 with e | e
        · rw [e, h]
        · exact absurd hp2 (hn o2 e)
      | some c =>
        rw [hg] at h
        simp only [optMax, Option.some.injEq] at h
        obtain ⟨⟨o1, ho1, hp1, hv1⟩, hub⟩ := ih c hg
        constructor
        · by_cases hc : c ≤ o.LastModified
          · exact ⟨o, by simp, hp, by rw [← h, max_eq_left hc]⟩
          · exact ⟨o1, by simp [ho1], hp1, by rw [hv1, ← h, max_eq_right (le_of_not_le hc)]⟩
        · intro o2 ho2 hp2
          rcases List.mem_cons.1 ho2 with e | e
          · rw [e, ← h]; exact le_max_left _ _
          · exact le_trans (hub o2 e hp2) (by rw [← h]; exact le_max_right _ _)
    · simp only [hp, if_false, optMax] at h
      obtain ⟨⟨o1, ho1, hp1, hv1⟩, hub⟩ := ih v h
      refine ⟨⟨o1, by simp [ho1], hp1, hv1⟩, ?_⟩
      intro o2 ho2 hp2
      rcases List.mem_cons.1 ho2 with e | e
      · rw [e] at hp2; exact absurd hp2 hp
      · exact hub o2 e hp2


/-! ## `SortHashMap` and `FindMostRecentDeployments` -/

theorem recordStep_absent (m : GoMap) (k : Object) (h : k.Name ∉ keys m) :
    recordStep m k = m ++ [(k.Name, k.LastModified)] :=
  mapSet_absent m _ _ h

theorem foldl_recordStep (l : ByDate) (m : GoMap) (hl : (l.map Object.Name).Nodup)
    (hd : ∀ k ∈ l, k.Name ∉ keys m) :
    l.foldl recordStep m = m ++ l.map (fun k => (k.Name, k.LastModified)) := by
  induction l generalizing m with
  | nil => simp
  | cons a t ih =>
    have hl2 : a.Name ∉ t.map Object.Name ∧ (t.map Object.Name).Nodup := by
      simpa using hl
    rw [List.foldl_cons, recordStep_absent m a (hd a (by simp))]
    rw [ih _ hl2.2]
    · simp
    · intro k hk hin
      simp only [keys, List.map_append, List.map_cons, List.map_nil, List.mem_append,
        List.mem_singleton] at hin
      rcases hin with hin | hin
      · exact hd k (by simp [hk]) hin
      · exact hl2.1 (by rw [← hin]; exact List.mem_map_of_mem _ hk)

theorem sliceTo_eq (s : ByDate) (x : Int) (h0 : 0 ≤ x) (h1 : x ≤ s.length) :
    sliceTo s x = .ok (s.take x.toNat) := by
  unfold sliceTo
  rw [if_neg]
  omega

theorem FindMostRecentDeployments_eq (s : ByDate) (x : Int) (hx : 0 < x)
    (hs : (s.map Object.Name).Nodup) :
    FindMostRecentDeployments s x =
      .ok ((s.take x.toNat).map (fun k => (k.Name, k.LastModified))) := by
  have hne : x ≠ 0 := by omega
  have hsub : ((s.take x.toNat).map Object.Name).Nodup := by
    rw [List.map_take]
    exact List.Nodup.sublist (List.take_sublist _ _) hs
  unfold FindMostRecentDeployments
  rw [if_neg hne]
  by_cases hlt : x < s.Len
  · rw [if_pos hlt, sliceTo_eq s x (le_of_lt hx) (le_of_lt hlt)]
    simp only [Except.bind]
    rw [foldl_recordStep _ [] hsub (by simp [keys])]
    simp
  · rw [if_neg hlt]
    have hle : s.length ≤ x.toNat := by
      unfold ByDate.Len at hlt
      omega
    simp only [Except.bind]
    rw [List.take_of_length_le hle, foldl_recordStep _ [] hs (by simp [keys])]
    simp

theorem sortSort_perm (data : ByDate) : (sortSort data).Perm data :=
  List.perm_insertionSort _ data

theorem sortSort_sorted (data : ByDate) :
    (sortSort data).Sorted (fun a b => Less b a = false) :=
  List.sorted_insertionSort _ data

theorem SortHashMap_perm (m : GoMap) (range : RangeOrder) (hr : (range m).Perm m) :
    (SortHashMap m range).Perm (m.map mkObject) :=
  (sortSort_perm _).trans (hr.map mkObject)

theorem SortHashMap_names (m : GoMap) (range : RangeOrder) (hr : (range m).Perm m) :
    ((SortHashMap m range).map Object.Name).Perm (keys m) := by
  have h := (SortHashMap_perm m range hr).map Object.Name
  simpa [keys, mkObject, Function.comp_def] using h

theorem SortHashMap_nodup (m : GoMap) (hm : NodupKeys m) (range : RangeOrder)
    (hr : (range m).Perm m) : ((SortHashMap m range).map Object.Name).Nodup :=
  (List.Perm.nodup_iff (SortHashMap_names m range hr)).2 hm

theorem SortHashMap_length (m : GoMap) (range : RangeOrder) (hr : (range m).Perm m) :
    (SortHashMap m range).length = m.length := by
  simpa using (SortHashMap_perm m range hr).length_eq

theorem SortHashMap_entries (m : GoMap) (range : RangeOrder) (hr : (range m).Perm m) :
    ((SortHashMap m range).map (fun k => (k.Name, k.LastModified))).Perm m := by
  have h := (SortHashMap_perm m range hr).map (fun k => (k.Name, k.LastModified))
  simpa [mkObject, Function.comp_def] using h


theorem Less_eq_false_iff (a b : Object) :
    Less b a = false ↔ a.LastModified ≤ b.LastModified := by
  simp [Less, Before]

theorem take_le_drop_of_sorted (s : ByDate) (hs : s.Sorted (fun a b => Less b a = false))
    (k : Nat) (a b : Object) (ha : a ∈ s.take k) (hb : b ∈ s.drop k) :
    a.LastModified ≤ b.LastModified := by
  have h : (s.take k ++ s.drop k).Pairwise (fun a b => Less b a = false) := by
    rw [List.take_append_drop]; exact hs
  exact (Less_eq_false_iff a b).1 ((List.pairwise_append.1 h).2.2 a ha b hb)

theorem filter_eq_take_of_sorted (p : Object → Bool) (s : ByDate)
    (hs : s.Sorted (fun a b => Less b a = false))
    (hp : ∀ x y : Object, x.LastModified ≤ y.LastModified → p y = true → p x = true) :
    s.filter p = s.take (s.filter p).length := by
  induction s with
  | nil => rfl
  | cons a t ih =>
    have hs2 := List.pairwise_cons.1 hs
    by_cases hpa : p a = true
    · rw [List.filter_cons_of_pos hpa, List.length_cons, List.take_succ_cons, ← ih hs2.2]
    · have hnil : t.filter p = [] := by
        rw [List.filter_eq_nil_iff]
        intro b hb hpb
        exact hpa (hp a b ((Less_eq_false_iff a b).1 (hs2.1 b hb)) hpb)
      rw [List.filter_cons_of_neg hpa, hnil]
      rfl

theorem filter_append_eq_left (p : Object → Bool) (l1 l2 : ByDate)
    (h1 : ∀ a ∈ l1, p a = true) (h2 : ∀ b ∈ l2, ¬ p b = true) :
    (l1 ++ l2).filter p = l1 := by
  rw [List.filter_append, List.filter_eq_self.2 h1, List.filter_eq_nil_iff.2 h2,
    List.append_nil]

/-- Two sorted arrangements of the same groups have the same first `k` groups, up
to order, as soon as in one of them no group among the first `k` has the recency
of a group after them. -/
theorem take_perm_of_sorted (s1 s2 : ByDate) (k : Nat) (hperm : s1.Perm s2)
    (hs1 : s1.Sorted (fun a b => Less b a = false))
    (hs2 : s2.Sorted (fun a b => Less b a = false))
    (hsep : ∀ a ∈ s1.take k, ∀ b ∈ s1.drop k, a.LastModified ≠ b.LastModified) :
    (s2.take k).Perm (s1.take k) := by
  let p : Object → Bool := fun x => (s1.take k).any fun a => decide (x.LastModified ≤ a.LastModified)
  have hp : ∀ x y : Object, x.LastModified ≤ y.LastModified → p y = true → p x = true := by
    intro x y hxy hy
    simp only [p, List.any_eq_true, decide_eq_true_eq] at hy ⊢
    obtain ⟨a, ha, hya⟩ := hy
    exact ⟨a, ha, le_trans hxy hya⟩
  have h1 : ∀ a ∈ s1.take k, p a = true := by
    intro a ha
    simp only [p, List.any_eq_true, decide_eq_true_eq]
    exact ⟨a, ha, le_refl _⟩
  have h2 : ∀ b ∈ s1.drop k, ¬ p b = true := by
    intro b hb hpb
    simp only [p, List.any_eq_true, decide_eq_true_eq] at hpb
    obtain ⟨a, ha, hba⟩ := hpb
    exact hsep a ha b hb (le_antisymm (take_le_drop_of_sorted s1 hs1 k a b ha hb) hba)
  have hf1 : s1.filter p = s1.take k := by
    have := filter_append_eq_left p _ _ h1 h2
    rwa [List.take_append_drop] at this
  have hf2 := filter_eq_take_of_sorted p s2 hs2 hp
  have hfp : (s2.filter p).Perm (s1.filter p) := (hperm.symm).filter p
  have hlen : (s2.filter p).length = min k s2.length := by
    rw [hfp.length_eq, hf1, List.length_take, hperm.length_eq]
  have htake : s2.take (s2.filter p).length = s2.take k := by
    rw [hlen]
    by_cases hk : k ≤ s2.length
    · rw [min_eq_left hk]
    · have hk2 : s2.length ≤ k := by omega
      rw [min_eq_right hk2, List.take_of_length_le hk2, List.take_of_length_le (le_refl _)]
  rw [← htake, ← hf2, ← hf1]
  exact hfp

theorem SortHashMap_sorted (m : GoMap) (range : RangeOrder) :
    (SortHashMap m range).Sorted (fun a b => Less b a = false) :=
  sortSort_sorted _

/-- The model of `sort.Sort` loses no outcome of the library's unstable sort:
every sorted arrangement of the entries of a map is what `SortHashMap` returns
under some admissible range order. -/
theorem SortHashMap_reaches_every_sorted_arrangement (m : GoMap) (s : ByDate)
    (hperm : s.Perm (m.map mkObject)) (hs : s.Sorted (fun a b => Less b a = false)) :
    ∃ range : RangeOrder, range.Admissible ∧ SortHashMap m range = s := by
  refine ⟨fun m1 => if m1.Perm m then s.map (fun k => (k.Name, k.LastModified)) else m1,
    ?_, ?_⟩
  · intro m1
    by_cases h : m1.Perm m
    · simp only [h, if_true]
      have h3 := hperm.map (fun k : Object => (k.Name, k.LastModified))
      have h4 : (m.map mkObject).map (fun k : Object => (k.Name, k.LastModified)) = m := by
        simp [mkObject, Function.comp_def]
      rw [h4] at h3
      exact h3.trans h.symm
    · simp only [h, if_false]
      exact List.Perm.refl _
  · have h4 : (s.map (fun k : Object => (k.Name, k.LastModified))).map mkObject = s := by
      simp [mkObject, Function.comp_def]
    simp only [SortHashMap, List.Perm.refl, if_true, h4]
    exact List.Sorted.insertionSort_eq hs


/-! ## `PopulateObjectsToDelete` -/

theorem PopulateObjectsToDelete_eq (acc : List String) (objects : List S3Object)
    (recent : GoMap) :
    PopulateObjectsToDelete acc objects recent =
      acc ++ (objects.filter fun o => (mapGet recent (PrefixID o.Key)).isNone).map
        S3Object.Key := by
  induction objects generalizing acc with
  | nil => simp [PopulateObjectsToDelete]
  | cons o t ih =>
    simp only [PopulateObjectsToDelete, List.foldl_cons] at ih ⊢
    rw [ih]
    cases h : mapGet recent (PrefixID o.Key) <;> simp [populateStep, h, List.filter_cons]

/-! ## The claims -/

/-- C9. For every key, `strings.SplitN(key, "/", 2)[0]` (the prefix computed by
`CreateHashMap` and by `PopulateObjectsToDelete`) exists, contains no `/`, and is
the part of the key before its first `/`: either the key has no `/` and the prefix
is the whole key, or the key is the prefix followed by `/` and a remainder. -/
theorem PrefixID_is_part_before_first_slash (key : String) :
    (SplitN key "/" 2)[0]? = some (PrefixID key) ∧
    '/' ∉ (PrefixID key).data ∧
    (('/' ∉ key.data ∧ PrefixID key = key) ∨
      ('/' ∈ key.data ∧ ∃ rest : String, key = PrefixID key ++ "/" ++ rest)) := by
  refine ⟨SplitN_index_zero key, ?_, ?_⟩
  · rw [PrefixID_data]; exact takeWhile_ne_not_mem _
  · rcases takeWhile_slash_cases key.data with ⟨h1, h2⟩ | ⟨h1, rest, h2⟩
    · left
      exact ⟨h1, String.ext (by rw [PrefixID_data, h2])⟩
    · right
      refine ⟨h1, String.mk rest, String.ext ?_⟩
      have hs : ("/" : String).data = ['/'] := rfl
      rw [String.data_append, String.data_append, PrefixID_data, hs, List.append_assoc]
      exact h2

/-- C3. For every listing (the empty one included) and every prefix `p`, the
mapping returned by `CreateHashMap` has an entry for `p` exactly when some record
has `PrefixID` `p`; the value stored for `p` is the `lastModified` of one of those
records and no record with that prefix has a later one; and no prefix has two
entries. -/
theorem CreateHashMap_recency_is_maximum (objects : List S3Object) (p : String) :
    ((∃ v, mapGet (CreateHashMap objects) p = some v) ↔
        ∃ o ∈ objects, PrefixID o.Key = p) ∧
    (∀ v, mapGet (CreateHashMap objects) p = some v →
        (∃ o ∈ objects, PrefixID o.Key = p ∧ o.LastModified = v) ∧
          ∀ o ∈ objects, PrefixID o.Key = p → o.LastModified ≤ v) ∧
    NodupKeys (CreateHashMap objects) := by
  refine ⟨?_, CreateHashMap_some_max objects p, NodupKeys_CreateHashMap objects⟩
  constructor
  · rintro ⟨v, hv⟩
    obtain ⟨⟨o, ho, hp, _⟩, _⟩ := CreateHashMap_some_max objects p v hv
    exact ⟨o, ho, hp⟩
  · rintro ⟨o, ho, hp⟩
    cases h : mapGet (CreateHashMap objects) p with
    | none => exact absurd hp ((CreateHashMap_none_iff objects p).1 h o ho)
    | some v => exact ⟨v, rfl⟩

/-- C10. `CreateHashMap` returns the same mapping for a listing and for any
permutation of it (same lookups, same set of entries), and the grouping of a
concatenation `a ++ b` is, prefix by prefix, the larger of the recencies in the
groupings of `a` and of `b`. -/
theorem CreateHashMap_order_independent (l1 l2 a b : List S3Object) (h : l1.Perm l2) :
    (∀ p, mapGet (CreateHashMap l1) p = mapGet (CreateHashMap l2) p) ∧
    (CreateHashMap l1).Perm (CreateHashMap l2) ∧
    (∀ p, mapGet (CreateHashMap (a ++ b)) p =
        optMax (mapGet (CreateHashMap a) p) (mapGet (CreateHashMap b) p)) :=
  ⟨mapGet_CreateHashMap_perm h,
   perm_of_mapGet_eq _ _ (NodupKeys_CreateHashMap l1) (NodupKeys_CreateHashMap l2)
     (mapGet_CreateHashMap_perm h),
   mapGet_CreateHashMap_append a b⟩

/-- Witness of C10: a listing with a duplicate key and one of its rearrangements. -/
theorem CreateHashMap_order_independent_witness :
    ([⟨"a/1", 1⟩, ⟨"b/1", 2⟩, ⟨"a/1", 3⟩] : List S3Object).Perm
        [⟨"a/1", 3⟩, ⟨"a/1", 1⟩, ⟨"b/1", 2⟩] ∧
    (∀ p, mapGet (CreateHashMap [⟨"a/1", 1⟩, ⟨"b/1", 2⟩, ⟨"a/1", 3⟩]) p =
        mapGet (CreateHashMap [⟨"a/1", 3⟩, ⟨"a/1", 1⟩, ⟨"b/1", 2⟩]) p) ∧
    (CreateHashMap [⟨"a/1", 1⟩, ⟨"b/1", 2⟩, ⟨"a/1", 3⟩]).Perm
        (CreateHashMap [⟨"a/1", 3⟩, ⟨"a/1", 1⟩, ⟨"b/1", 2⟩]) ∧
    (∀ p, mapGet (CreateHashMap ([⟨"a/1", 1⟩] ++ [⟨"a/2", 3⟩])) p =
        optMax (mapGet (CreateHashMap [⟨"a/1", 1⟩]) p)
          (mapGet (CreateHashMap [⟨"a/2", 3⟩]) p)) :=
  ⟨by decide,
   CreateHashMap_order_independent [⟨"a/1", 1⟩, ⟨"b/1", 2⟩, ⟨"a/1", 3⟩]
     [⟨"a/1", 3⟩, ⟨"a/1", 1⟩, ⟨"b/1", 2⟩] [⟨"a/1", 1⟩] [⟨"a/2", 3⟩] (by decide)⟩


theorem FindMostRecentDeployments_of_zero (s : ByDate) :
    FindMostRecentDeployments s 0 = .error (.fatal "No Deployments selected.\nExiting...") := by
  simp [FindMostRecentDeployments]

theorem FindMostRecentDeployments_of_neg (s : ByDate) (x : Int) (hx : x < 0) :
    FindMostRecentDeployments s x = .error .sliceBoundsOutOfRange := by
  have hne : x ≠ 0 := by omega
  have hlt : x < s.Len := by unfold ByDate.Len; omega
  simp [FindMostRecentDeployments, hne, hlt, sliceTo, hx, Except.bind]

/-- C4. At retention count `0` the Selector ends in `log.Fatalf("No Deployments
selected...")`, but at a negative count (here `-1`, on an empty and on a
one-element sequence) the guard `x == 0` is passed and the run ends in the
`slice bounds out of range` panic of `keyMapSorted[:x]`. -/
theorem FindMostRecentDeployments_negative_count_panics :
    FindMostRecentDeployments [] 0 = .error (.fatal "No Deployments selected.\nExiting...") ∧
    FindMostRecentDeployments [] (-1) = .error .sliceBoundsOutOfRange ∧
    FindMostRecentDeployments [⟨"a", 5⟩] (-1) = .error .sliceBoundsOutOfRange := by
  decide

/-- C6, as stated, fails: with nothing retained, a second call of
`PopulateObjectsToDelete` on the listing `b/1` returns `[b/1, b/1]`, not the
`[b/1]` of the first call. -/
theorem PopulateObjectsToDelete_second_call_differs :
    PopulateObjectsToDelete [] [⟨"b/1", 5⟩] [] = ["b/1"] ∧
    PopulateObjectsToDelete (PopulateObjectsToDelete [] [⟨"b/1", 5⟩] []) [⟨"b/1", 5⟩] [] =
      ["b/1", "b/1"] ∧
    PopulateObjectsToDelete (PopulateObjectsToDelete [] [⟨"b/1", 5⟩] []) [⟨"b/1", 5⟩] [] ≠
      PopulateObjectsToDelete [] [⟨"b/1", 5⟩] [] := by
  decide

/-- C6, amended. `PopulateObjectsToDelete` appends to the package variable
`objectsToDelete`, which survives the call: a call returns the list accumulated
before it followed, in listing order, by the keys of its own listing whose
`PrefixID` has no entry in the retained mapping; started from the empty list it
returns exactly those keys, all of them keys of its own listing; and a second
call with the same arguments returns them twice. -/
theorem PopulateObjectsToDelete_accumulates (acc : List String) (objects : List S3Object)
    (recent : GoMap) :
    PopulateObjectsToDelete acc objects recent =
      acc ++ (objects.filter fun o => (mapGet recent (PrefixID o.Key)).isNone).map
        S3Object.Key ∧
    PopulateObjectsToDelete [] objects recent =
      (objects.filter fun o => (mapGet recent (PrefixID o.Key)).isNone).map S3Object.Key ∧
    (∀ k, k ∈ PopulateObjectsToDelete [] objects recent ↔
      k ∈ objects.map S3Object.Key ∧ mapGet recent (PrefixID k) = none) ∧
    PopulateObjectsToDelete (PopulateObjectsToDelete [] objects recent) objects recent =
      (objects.filter fun o => (mapGet recent (PrefixID o.Key)).isNone).map S3Object.Key ++
        (objects.filter fun o => (mapGet recent (PrefixID o.Key)).isNone).map
          S3Object.Key := by
  refine ⟨PopulateObjectsToDelete_eq acc objects recent, ?_, ?_, ?_⟩
  · rw [PopulateObjectsToDelete_eq]; rfl
  · intro k
    rw [PopulateObjectsToDelete_eq]
    simp only [List.nil_append, List.mem_map, List.mem_filter, Option.isNone_iff_eq_none]
    constructor
    · rintro ⟨o, ⟨ho, hnone⟩, rfl⟩
      exact ⟨⟨o, ho, rfl⟩, hnone⟩
    · rintro ⟨⟨o, ho, rfl⟩, hnone⟩
      exact ⟨o, ⟨ho, hnone⟩, rfl⟩
  · rw [PopulateObjectsToDelete_eq (PopulateObjectsToDelete [] objects recent),
      PopulateObjectsToDelete_eq []]
    rfl

/-- C1. On the listing `a/1@1, a/2@3, b/1@2, c/1@5` with `K = 2`, with the map
ranged over in order and in reverse alike, the program groups `a:3, b:2, c:5`,
retains `b` and `a` (the two oldest deployments) and plans the deletion of
`c/1`, the most recent one. -/
theorem scenario_retains_oldest :
    CreateHashMap [⟨"a/1", 1⟩, ⟨"a/2", 3⟩, ⟨"b/1", 2⟩, ⟨"c/1", 5⟩] =
      [("a", 3), ("b", 2), ("c", 5)] ∧
    mainRetained id [⟨"a/1", 1⟩, ⟨"a/2", 3⟩, ⟨"b/1", 2⟩, ⟨"c/1", 5⟩] 2 =
      .ok [("b", 2), ("a", 3)] ∧
    mainPlan id [⟨"a/1", 1⟩, ⟨"a/2", 3⟩, ⟨"b/1", 2⟩, ⟨"c/1", 5⟩] 2 = .ok ["c/1"] ∧
    mainRetained List.reverse [⟨"a/1", 1⟩, ⟨"a/2", 3⟩, ⟨"b/1", 2⟩, ⟨"c/1", 5⟩] 2 =
      .ok [("b", 2), ("a", 3)] ∧
    mainPlan List.reverse [⟨"a/1", 1⟩, ⟨"a/2", 3⟩, ⟨"b/1", 2⟩, ⟨"c/1", 5⟩] 2 =
      .ok ["c/1"] := by
  decide

/-- C7. For every mapping with pairwise distinct prefixes, every way of ranging
over it and every `K > 0`, `FindMostRecentDeployments` applied to `SortHashMap`
of the mapping returns a mapping with exactly `min(K, n)` entries, `n` the number
of entries of the input, each of them an entry of the input with the same
recency. -/
theorem retained_has_min_K_n_entries (m : GoMap) (range : RangeOrder) (K : Int)
    (hm : NodupKeys m) (hr : range.Admissible) (hK : 0 < K) :
    ∃ retained, FindMostRecentDeployments (SortHashMap m range) K = .ok retained ∧
      NodupKeys retained ∧
      (retained.length : Int) = min K (m.length : Int) ∧
      ∀ p v, mapGet retained p = some v → mapGet m p = some v := by
  have hs := SortHashMap_nodup m hm range (hr m)
  refine ⟨_, FindMostRecentDeployments_eq _ K hK hs, ?_, ?_, ?_⟩
  · unfold NodupKeys keys
    rw [List.map_map]
    have : (Prod.fst ∘ fun k : Object => (k.Name, k.LastModified)) = Object.Name := rfl
    rw [this, List.map_take]
    exact List.Nodup.sublist (List.take_sublist _ _) hs
  · rw [List.length_map, List.length_take, SortHashMap_length m range (hr m)]
    omega
  · intro p v hpv
    have hmem := mapGet_some_mem _ _ _ hpv
    obtain ⟨k, hk, hkv⟩ := List.mem_map.1 hmem
    have hk2 : (k.Name, k.LastModified) ∈
        (SortHashMap m range).map (fun k => (k.Name, k.LastModified)) :=
      List.mem_map_of_mem _ (List.mem_of_mem_take hk)
    rw [hkv] at hk2
    exact mem_mapGet m hm _ _ ((SortHashMap_entries m range (hr m)).subset hk2)

/-- Witness of C7: three groups, `K = 2`, ranged over in reverse. -/
theorem retained_has_min_K_n_entries_witness :
    NodupKeys [("a", 3), ("b", 2), ("c", 5)] ∧ RangeOrder.Admissible List.reverse ∧
    (0 : Int) < 2 ∧
    ∃ retained,
      FindMostRecentDeployments (SortHashMap [("a", 3), ("b", 2), ("c", 5)] List.reverse) 2 =
        .ok retained ∧
      NodupKeys retained ∧
      (retained.length : Int) = min 2 (([("a", 3), ("b", 2), ("c", 5)] : GoMap).length : Int) ∧
      ∀ p v, mapGet retained p = some v → mapGet [("a", 3), ("b", 2), ("c", 5)] p = some v :=
  ⟨by decide, fun m => List.reverse_perm m, by decide,
   retained_has_min_K_n_entries [("a", 3), ("b", 2), ("c", 5)] List.reverse 2 (by decide)
     (fun m => List.reverse_perm m) (by decide)⟩


theorem mem_keys_CreateHashMap (objects : List S3Object) (p : String) :
    p ∈ keys (CreateHashMap objects) ↔ p ∈ objects.map fun o => PrefixID o.Key := by
  have h := CreateHashMap_none_iff objects p
  rw [mapGet_eq_none_iff] at h
  rw [List.mem_map]
  constructor
  · intro hin
    by_contra hne
    exact h.2 (fun o ho hp => hne ⟨o, ho, hp⟩) hin
  · rintro ⟨o, ho, hp⟩
    by_contra hnot
    exact h.1 hnot o ho hp

theorem CreateHashMap_length (objects : List S3Object) :
    (CreateHashMap objects).length = distinctPrefixCount objects := by
  have hperm : (keys (CreateHashMap objects)).Perm
      ((objects.map fun o => PrefixID o.Key).dedup) := by
    refine (List.perm_ext_iff_of_nodup (NodupKeys_CreateHashMap objects)
      (List.nodup_dedup _)).2 ?_
    intro p
    rw [mem_keys_CreateHashMap, List.mem_dedup]
  have := hperm.length_eq
  simpa [keys, distinctPrefixCount] using this

theorem retained_entries_nodupKeys (s : ByDate) (k : Nat)
    (hs : (s.map Object.Name).Nodup) :
    NodupKeys ((s.take k).map (fun k => (k.Name, k.LastModified))) := by
  unfold NodupKeys keys
  rw [List.map_map]
  have : (Prod.fst ∘ fun k : Object => (k.Name, k.LastModified)) = Object.Name := rfl
  rw [this, List.map_take]
  exact List.Nodup.sublist (List.take_sublist _ _) hs

/-- C8. For every listing, every way of ranging over the map and every `K > 0`
that is at least the number of distinct `PrefixID`s of the listing, the pipeline
`CreateHashMap`, `SortHashMap`, `FindMostRecentDeployments`,
`PopulateObjectsToDelete`, started with an empty `objectsToDelete`, returns the
empty deletion plan. -/
theorem saturated_retention_deletes_nothing (range : RangeOrder) (objects : List S3Object)
    (K : Int) (hr : range.Admissible) (hK : 0 < K)
    (hn : (distinctPrefixCount objects : Int) ≤ K) :
    mainPlan range objects K = .ok [] := by
  have hm := NodupKeys_CreateHashMap objects
  have hs := SortHashMap_nodup _ hm range (hr _)
  have hlen : (SortHashMap (CreateHashMap objects) range).length ≤ K.toNat := by
    rw [SortHashMap_length _ range (hr _), CreateHashMap_length]
    omega
  unfold mainPlan
  rw [FindMostRecentDeployments_eq _ K hK hs, List.take_of_length_le hlen]
  simp only [Except.bind]
  rw [PopulateObjectsToDelete_eq]
  have hnd := retained_entries_nodupKeys _ K.toNat hs
  rw [List.take_of_length_le hlen] at hnd
  have hnil : (objects.filter fun o =>
      (mapGet ((SortHashMap (CreateHashMap objects) range).map
        (fun k => (k.Name, k.LastModified))) (PrefixID o.Key)).isNone) = [] := by
    rw [List.filter_eq_nil_iff]
    intro o ho hnone
    rw [mapGet_eq_of_perm _ _ hnd (SortHashMap_entries _ range (hr _))] at hnone
    rw [Option.isNone_iff_eq_none] at hnone
    exact (CreateHashMap_none_iff objects _).1 hnone o ho rfl
  rw [hnil]
  rfl

/-- Witness of C8: two deployments, `K = 2`. -/
theorem saturated_retention_deletes_nothing_witness :
    RangeOrder.Admissible id ∧ (0 : Int) < 2 ∧
    (distinctPrefixCount [⟨"a/1", 1⟩, ⟨"a/2", 3⟩, ⟨"b/1", 2⟩] : Int) ≤ 2 ∧
    mainPlan id [⟨"a/1", 1⟩, ⟨"a/2", 3⟩, ⟨"b/1", 2⟩] 2 = .ok [] :=
  ⟨fun m => List.Perm.refl m, by decide, by decide,
   saturated_retention_deletes_nothing id [⟨"a/1", 1⟩, ⟨"a/2", 3⟩, ⟨"b/1", 2⟩] 2
     (fun m => List.Perm.refl m) (by decide) (by decide)⟩

theorem mem_plan_iff (objects : List S3Object) (retained : GoMap) (k : String) :
    k ∈ PopulateObjectsToDelete [] objects retained ↔
      k ∈ objects.map S3Object.Key ∧ mapGet retained (PrefixID k) = none := by
  rw [PopulateObjectsToDelete_eq]
  simp only [List.nil_append, List.mem_map, List.mem_filter, Option.isNone_iff_eq_none]
  constructor
  · rintro ⟨o, ⟨ho, hnone⟩, rfl⟩
    exact ⟨⟨o, ho, rfl⟩, hnone⟩
  · rintro ⟨⟨o, ho, rfl⟩, hnone⟩
    exact ⟨o, ⟨ho, hnone⟩, rfl⟩

theorem mem_retainedKeys_iff (objects : List S3Object) (retained : GoMap) (k : String) :
    k ∈ retainedKeys objects retained ↔
      k ∈ objects.map S3Object.Key ∧ mapGet retained (PrefixID k) ≠ none := by
  simp only [retainedKeys, List.mem_map, List.mem_filter, Option.isSome_iff_ne_none]
  constructor
  · rintro ⟨o, ⟨ho, hsome⟩, rfl⟩
    exact ⟨⟨o, ho, rfl⟩, hsome⟩
  · rintro ⟨⟨o, ho, rfl⟩, hsome⟩
    exact ⟨o, ⟨ho, hsome⟩, rfl⟩

theorem retainedKeys_append_plan_perm (objects : List S3Object) (retained : GoMap) :
    (retainedKeys objects retained ++ PopulateObjectsToDelete [] objects retained).Perm
      (objects.map S3Object.Key) := by
  rw [PopulateObjectsToDelete_eq, List.nil_append, retainedKeys, ← List.map_append]
  refine List.Perm.map _ ?_
  have h := List.filter_append_perm (fun o : S3Object =>
    (mapGet retained (PrefixID o.Key)).isSome) objects
  have he : (fun o : S3Object => (mapGet retained (PrefixID o.Key)).isNone) =
      fun o => !(mapGet retained (PrefixID o.Key)).isSome := by
    funext o
    cases mapGet retained (PrefixID o.Key) <;> rfl
  rw [he]
  exact h

/-- C2. For every listing (non-empty or not), every way of ranging over the map
and every `K > 0`, the pipeline returns a retained mapping and, started with an
empty `objectsToDelete`, a deletion plan such that: a key of the listing is in the
plan exactly when its `PrefixID` is not retained; every key of the listing is a
retained key or in the plan; no key is both; and the retained keys followed by
the plan are a rearrangement of the keys of the listing. -/
theorem partition_law (range : RangeOrder) (objects : List S3Object) (K : Int)
    (hr : range.Admissible) (hK : 0 < K) :
    ∃ retained plan,
      mainRetained range objects K = .ok retained ∧
      mainPlan range objects K = .ok plan ∧
      (∀ o ∈ objects, o.Key ∈ plan ↔ mapGet retained (PrefixID o.Key) = none) ∧
      (∀ k, k ∈ objects.map S3Object.Key ↔ k ∈ retainedKeys objects retained ∨ k ∈ plan) ∧
      (∀ k, ¬ (k ∈ retainedKeys objects retained ∧ k ∈ plan)) ∧
      (retainedKeys objects retained ++ plan).Perm (objects.map S3Object.Key) := by
  have hm := NodupKeys_CreateHashMap objects
  have hs := SortHashMap_nodup _ hm range (hr _)
  have hfm := FindMostRecentDeployments_eq _ K hK hs
  refine ⟨_, PopulateObjectsToDelete [] objects _, hfm, ?_, ?_, ?_, ?_,
    retainedKeys_append_plan_perm objects _⟩
  · unfold mainPlan
    rw [hfm]
    rfl
  · intro o ho
    rw [mem_plan_iff]
    exact ⟨fun h => h.2, fun h => ⟨List.mem_map_of_mem _ ho, h⟩⟩
  · intro k
    rw [mem_plan_iff, mem_retainedKeys_iff]
    constructor
    · intro hk
      exact (em _).symm.imp (fun hnone => ⟨hk, hnone⟩) (fun hnone => ⟨hk, hnone⟩)
    · rintro (h | h) <;> exact h.1
  · intro k
    rw [mem_plan_iff, mem_retainedKeys_iff]
    rintro ⟨h1, h2⟩
    exact h1.2 h2.2

/-- Witness of C2: the scenario listing with `K = 2`. -/
theorem partition_law_witness :
    RangeOrder.Admissible id ∧ (0 : Int) < 2 ∧
    ∃ retained plan,
      mainRetained id [⟨"a/1", 1⟩, ⟨"a/2", 3⟩, ⟨"b/1", 2⟩, ⟨"c/1", 5⟩] 2 = .ok retained ∧
      mainPlan id [⟨"a/1", 1⟩, ⟨"a/2", 3⟩, ⟨"b/1", 2⟩, ⟨"c/1", 5⟩] 2 = .ok plan ∧
      (∀ o ∈ ([⟨"a/1", 1⟩, ⟨"a/2", 3⟩, ⟨"b/1", 2⟩, ⟨"c/1", 5⟩] : List S3Object),
        o.Key ∈ plan ↔ mapGet retained (PrefixID o.Key) = none) ∧
      (∀ k, k ∈ ([⟨"a/1", 1⟩, ⟨"a/2", 3⟩, ⟨"b/1", 2⟩, ⟨"c/1", 5⟩] : List S3Object).map
          S3Object.Key ↔
        k ∈ retainedKeys [⟨"a/1", 1⟩, ⟨"a/2", 3⟩, ⟨"b/1", 2⟩, ⟨"c/1", 5⟩] retained ∨
          k ∈ plan) ∧
      (∀ k, ¬ (k ∈ retainedKeys [⟨"a/1", 1⟩, ⟨"a/2", 3⟩, ⟨"b/1", 2⟩, ⟨"c/1", 5⟩] retained ∧
          k ∈ plan)) ∧
      (retainedKeys [⟨"a/1", 1⟩, ⟨"a/2", 3⟩, ⟨"b/1", 2⟩, ⟨"c/1", 5⟩] retained ++ plan).Perm
        (([⟨"a/1", 1⟩, ⟨"a/2", 3⟩, ⟨"b/1", 2⟩, ⟨"c/1", 5⟩] : List S3Object).map
          S3Object.Key) :=
  ⟨fun m => List.Perm.refl m, by decide,
   partition_law id [⟨"a/1", 1⟩, ⟨"a/2", 3⟩, ⟨"b/1", 2⟩, ⟨"c/1", 5⟩] 2
     (fun m => List.Perm.refl m) (by decide)⟩


theorem mem_take_or_drop (s : ByDate) (k : Nat) (b : Object) (hb : b ∈ s) :
    b ∈ s.take k ∨ b ∈ s.drop k := by
  rw [← List.take_append_drop k s] at hb
  exact List.mem_append.1 hb

theorem names_take_drop_disjoint (s : ByDate) (k : Nat) (hs : (s.map Object.Name).Nodup)
    (a b : Object) (ha : a ∈ s.take k) (hb : b ∈ s.drop k) : a.Name ≠ b.Name := by
  have h : ((s.take k).map Object.Name ++ (s.drop k).map Object.Name).Nodup := by
    rw [← List.map_append, List.take_append_drop]; exact hs
  intro e
  exact (List.nodup_append.1 h).2.2 (List.mem_map_of_mem _ ha)
    (by rw [e]; exact List.mem_map_of_mem _ hb)

/-- What the Selector does retain: for every mapping, range order and `K > 0`,
every retained group has a recency less than or equal to that of every group
that is not retained (the `K` least recent groups are kept). -/
theorem FindMostRecentDeployments_keeps_least_recent (m : GoMap) (range : RangeOrder)
    (K : Int) (hm : NodupKeys m) (hr : range.Admissible) (hK : 0 < K) :
    ∃ retained, FindMostRecentDeployments (SortHashMap m range) K = .ok retained ∧
      ∀ p v q u, mapGet retained p = some v → mapGet m q = some u →
        mapGet retained q = none → v ≤ u := by
  have hs := SortHashMap_nodup m hm range (hr m)
  refine ⟨_, FindMostRecentDeployments_eq _ K hK hs, ?_⟩
  intro p v q u hp hq hnone
  obtain ⟨a, ha, hav⟩ := List.mem_map.1 (mapGet_some_mem _ _ _ hp)
  have hqm := (SortHashMap_entries m range (hr m)).symm.subset (mapGet_some_mem _ _ _ hq)
  obtain ⟨b, hb, hbu⟩ := List.mem_map.1 hqm
  simp only [Prod.mk.injEq] at hav hbu
  rcases mem_take_or_drop _ K.toNat b hb with hbt | hbd
  · have hin : (q, u) ∈ (List.take K.toNat (SortHashMap m range)).map
        (fun k => (k.Name, k.LastModified)) :=
      List.mem_map.2 ⟨b, hbt, by simp [hbu.1, hbu.2]⟩
    rw [mem_mapGet _ (retained_entries_nodupKeys _ _ hs) _ _ hin] at hnone
    exact absurd hnone (by simp)
  · have := take_le_drop_of_sorted _ (SortHashMap_sorted m range) K.toNat a b ha hbd
    rw [hav.2, hbu.2] at this
    exact this

/-- C5, as stated, fails: on the groups `a:5, b:5` with `K = 1`, ranged over in
reverse, the Selector retains `b` and leaves out `a`, although `a` is the smaller
`PrefixID`; ranged over in order it retains `a`.  So the retained set and the
deletion plan depend on the order of enumeration. -/
theorem tie_not_broken_by_PrefixID :
    (¬ ∀ (m : GoMap) (range : RangeOrder) (K : Int),
        NodupKeys m → range.Admissible → 0 < K →
        ∀ retained, FindMostRecentDeployments (SortHashMap m range) K = .ok retained →
          ∀ p q v, mapGet m p = some v → mapGet m q = some v →
            mapGet retained p = some v → mapGet retained q = none → p < q) ∧
    mainRetained List.reverse [⟨"a/1", 5⟩, ⟨"b/1", 5⟩] 1 = .ok [("b", 5)] ∧
    mainPlan List.reverse [⟨"a/1", 5⟩, ⟨"b/1", 5⟩] 1 = .ok ["a/1"] ∧
    mainRetained id [⟨"a/1", 5⟩, ⟨"b/1", 5⟩] 1 = .ok [("a", 5)] ∧
    mainPlan id [⟨"a/1", 5⟩, ⟨"b/1", 5⟩] 1 = .ok ["b/1"] := by
  refine ⟨?_, by decide, by decide, by decide, by decide⟩
  intro h
  have hlt := h [("a", 5), ("b", 5)] List.reverse 1 (by decide)
    (fun m => List.reverse_perm m) (by decide) [("b", 5)] (by decide) "b" "a" 5
    (by decide) (by decide) (by decide) (by decide)
  rw [String.lt_iff_toList_lt] at hlt
  exact absurd hlt (by decide)

theorem swap_LastModified (a b x : Object) (hab : a.LastModified = b.LastModified) :
    (Equiv.swap a b x).LastModified = x.LastModified := by
  rw [Equiv.swap_apply_def]
  by_cases h1 : x = a
  · rw [if_pos h1, h1, hab]
  · by_cases h2 : x = b
    · rw [if_neg h1, if_pos h2, h2, hab]
    · rw [if_neg h1, if_neg h2]

theorem map_swap_perm (s : ByDate) (a b : Object) (hs : s.Nodup) (ha : a ∈ s) (hb : b ∈ s) :
    (s.map (Equiv.swap a b)).Perm s := by
  refine (List.perm_ext_iff_of_nodup (hs.map (Equiv.swap a b).injective) hs).2 ?_
  intro x
  rw [List.mem_map]
  constructor
  · rintro ⟨y, hy, rfl⟩
    rw [Equiv.swap_apply_def]
    by_cases h1 : y = a
    · rw [if_pos h1]; exact hb
    · by_cases h2 : y = b
      · rw [if_neg h1, if_pos h2]; exact ha
      · rw [if_neg h1, if_neg h2]; exact hy
  · intro hx
    refine ⟨Equiv.swap a b x, ?_, Equiv.swap_apply_self a b x⟩
    rw [Equiv.swap_apply_def]
    by_cases h1 : x = a
    · rw [if_pos h1]; exact hb
    · by_cases h2 : x = b
      · rw [if_neg h1, if_pos h2]; exact ha
      · rw [if_neg h1, if_neg h2]; exact hx

theorem map_swap_sorted (s : ByDate) (a b : Object) (hab : a.LastModified = b.LastModified)
    (hs : s.Sorted (fun a b => Less b a = false)) :
    (s.map (Equiv.swap a b)).Sorted (fun a b => Less b a = false) := by
  unfold List.Sorted at hs ⊢
  rw [List.pairwise_map]
  refine hs.imp ?_
  intro x y hxy
  rw [Less_eq_false_iff] at hxy ⊢
  rw [swap_LastModified a b x hab, swap_LastModified a b y hab]
  exact hxy

/-- Exchanging two groups of identical recency, one among the first `k` of a
sorted arrangement and one after them, gives a sorted arrangement of the same
groups with the second group among its first `k` and the first one not. -/
theorem exchange_tied_groups (s : ByDate) (k : Nat) (a b : Object)
    (hnd : (s.map Object.Name).Nodup) (hs : s.Sorted (fun a b => Less b a = false))
    (ha : a ∈ s.take k) (hb : b ∈ s.drop k) (hab : a.LastModified = b.LastModified) :
    (s.map (Equiv.swap a b)).Perm s ∧
    (s.map (Equiv.swap a b)).Sorted (fun a b => Less b a = false) ∧
    b ∈ (s.map (Equiv.swap a b)).take k ∧ a ∉ (s.map (Equiv.swap a b)).take k := by
  have hnd2 : s.Nodup := List.Nodup.of_map _ hnd
  refine ⟨map_swap_perm s a b hnd2 (List.mem_of_mem_take ha) (List.mem_of_mem_drop hb),
    map_swap_sorted s a b hab hs, ?_, ?_⟩
  · rw [← List.map_take]
    exact List.mem_map.2 ⟨a, ha, Equiv.swap_apply_left a b⟩
  · rw [← List.map_take]
    intro hin
    obtain ⟨y, hy, hya⟩ := List.mem_map.1 hin
    have hyb : y = b := by
      have := congrArg (Equiv.swap a b) hya
      rw [Equiv.swap_apply_self, Equiv.swap_apply_left] at this
      exact this
    rw [hyb] at hy
    exact names_take_drop_disjoint s k hnd b b hy hb rfl

/-- C5, amended.  The Selector orders the groups by recency alone.  For every
mapping with pairwise distinct prefixes, every `K > 0` and every range order,
with `retained1` what the Selector returns under it:
(1) if no group that is left out has the recency of a retained group, then under
every other range order the Selector retains the same groups with the same
recencies;
(2) whenever two groups `p` and `q` have the same recency and `p` is retained
while `q` is not, there is another range order of the same mapping under which
the Selector retains `q` and not `p`.
Instance: `a:5, b:5` with `K = 1` gives `a` in one order and `b` in the other. -/
theorem retained_depends_on_range_exactly_at_split_ties (m : GoMap)
    (range1 : RangeOrder) (K : Int) (retained1 : GoMap)
    (hm : NodupKeys m) (h1 : range1.Admissible) (hK : 0 < K)
    (he : FindMostRecentDeployments (SortHashMap m range1) K = .ok retained1) :
    (∀ range2 : RangeOrder, range2.Admissible →
      (∀ p q v, mapGet retained1 p = some v → mapGet m q = some v →
        mapGet retained1 q = some v) →
      ∃ retained2, FindMostRecentDeployments (SortHashMap m range2) K = .ok retained2 ∧
        (∀ p, mapGet retained2 p = mapGet retained1 p) ∧ retained2.Perm retained1) ∧
    (∀ p q v, mapGet m p = some v → mapGet m q = some v →
      mapGet retained1 p = some v → mapGet retained1 q = none →
      ∃ range2 : RangeOrder, range2.Admissible ∧
        ∃ retained2, FindMostRecentDeployments (SortHashMap m range2) K = .ok retained2 ∧
          mapGet retained2 q = some v ∧ mapGet retained2 p = none) ∧
    mainRetained id [⟨"a/1", 5⟩, ⟨"b/1", 5⟩] 1 = .ok [("a", 5)] ∧
    mainRetained List.reverse [⟨"a/1", 5⟩, ⟨"b/1", 5⟩] 1 = .ok [("b", 5)] := by
  have hs1 := SortHashMap_nodup m hm range1 (h1 m)
  have hnd1 := retained_entries_nodupKeys (SortHashMap m range1) K.toNat hs1
  rw [FindMostRecentDeployments_eq _ K hK hs1] at he
  have he2 : (List.take K.toNat (SortHashMap m range1)).map
      (fun k => (k.Name, k.LastModified)) = retained1 := by
    injection he
  subst he2
  refine ⟨?_, ?_, by decide, by decide⟩
  · intro range2 h2 hsep
    have hs2 := SortHashMap_nodup m hm range2 (h2 m)
    have hnd2 := retained_entries_nodupKeys (SortHashMap m range2) K.toNat hs2
    have hperm : (SortHashMap m range1).Perm (SortHashMap m range2) :=
      (SortHashMap_perm m range1 (h1 m)).trans (SortHashMap_perm m range2 (h2 m)).symm
    have hsep2 : ∀ a ∈ (SortHashMap m range1).take K.toNat,
        ∀ b ∈ (SortHashMap m range1).drop K.toNat, a.LastModified ≠ b.LastModified := by
      intro a ha b hb hab
      have hga := mem_mapGet _ hnd1 a.Name a.LastModified
        (List.mem_map.2 ⟨a, ha, rfl⟩)
      have hbm : (b.Name, b.LastModified) ∈ m :=
        (SortHashMap_entries m range1 (h1 m)).subset
          (List.mem_map.2 ⟨b, List.mem_of_mem_drop hb, rfl⟩)
      have hgb := mem_mapGet m hm _ _ hbm
      rw [← hab] at hgb
      have hin := mapGet_some_mem _ _ _ (hsep a.Name b.Name a.LastModified hga hgb)
      obtain ⟨c, hc, hcb⟩ := List.mem_map.1 hin
      simp only [Prod.mk.injEq] at hcb
      exact names_take_drop_disjoint _ K.toNat hs1 c b hc hb hcb.1
    have htake := take_perm_of_sorted _ _ K.toNat hperm (SortHashMap_sorted m range1)
      (SortHashMap_sorted m range2) hsep2
    have hfin := htake.map (fun k : Object => (k.Name, k.LastModified))
    exact ⟨_, FindMostRecentDeployments_eq _ K hK hs2,
      fun p => mapGet_eq_of_perm _ _ hnd2 hfin p, hfin⟩
  · intro p q v _ hq hp hnone
    obtain ⟨a, ha, hav⟩ := List.mem_map.1 (mapGet_some_mem _ _ _ hp)
    have hqm := (SortHashMap_entries m range1 (h1 m)).symm.subset (mapGet_some_mem _ _ _ hq)
    obtain ⟨b, hb, hbv⟩ := List.mem_map.1 hqm
    simp only [Prod.mk.injEq] at hav hbv
    have hbd : b ∈ (SortHashMap m range1).drop K.toNat := by
      rcases mem_take_or_drop _ K.toNat b hb with hbt | hbd
      · have hin : (q, v) ∈ (List.take K.toNat (SortHashMap m range1)).map
            (fun k => (k.Name, k.LastModified)) :=
          List.mem_map.2 ⟨b, hbt, by simp [hbv.1, hbv.2]⟩
        rw [mem_mapGet _ hnd1 _ _ hin] at hnone
        exact absurd hnone (by simp)
      · exact hbd
    have hab : a.LastModified = b.LastModified := by rw [hav.2, hbv.2]
    obtain ⟨hperm, hsorted, hbin, hanot⟩ := exchange_tied_groups (SortHashMap m range1)
      K.toNat a b hs1 (SortHashMap_sorted m range1) ha hbd hab
    obtain ⟨range2, h2, hrange2⟩ := SortHashMap_reaches_every_sorted_arrangement m _
      (hperm.trans (SortHashMap_perm m range1 (h1 m))) hsorted
    have hs2 := SortHashMap_nodup m hm range2 (h2 m)
    have hnd2 := retained_entries_nodupKeys (SortHashMap m range2) K.toNat hs2
    refine ⟨range2, h2, _, FindMostRecentDeployments_eq _ K hK hs2, ?_, ?_⟩
    · refine mem_mapGet _ hnd2 _ _ (List.mem_map.2 ⟨b, ?_, by simp [hbv.1, hbv.2]⟩)
      rw [hrange2]; exact hbin
    · rw [mapGet_eq_none_iff]
      intro hin
      obtain ⟨e, he1, he2⟩ := List.mem_map.1 hin
      obtain ⟨y, hy, hye⟩ := List.mem_map.1 he1
      have hyname : y.Name = a.Name := by
        rw [← hye] at he2
        simp only at he2
        rw [he2, hav.1]
      have hyS : y ∈ SortHashMap m range1 := by
        rw [hrange2] at hy
        exact hperm.subset (List.mem_of_mem_take hy)
      have hya : y = a :=
        List.inj_on_of_nodup_map hs1 hyS (List.mem_of_mem_take ha) hyname
      rw [hrange2, hya] at hy
      exact hanot hy


/-- Witness of C5 (amended): the groups `a:5, b:5, c:9` with `K = 1`, where the
tie between `a` and `b` is split, and the groups `a:3, b:2, c:5` with `K = 2`,
where no tie is split. -/
theorem retained_depends_on_range_exactly_at_split_ties_witness :
    NodupKeys [("a", 5), ("b", 5), ("c", 9)] ∧ RangeOrder.Admissible id ∧ (0 : Int) < 1 ∧
    FindMostRecentDeployments (SortHashMap [("a", 5), ("b", 5), ("c", 9)] id) 1 =
      .ok [("a", 5)] ∧
    (∃ range2 : RangeOrder, range2.Admissible ∧
      ∃ retained2,
        FindMostRecentDeployments (SortHashMap [("a", 5), ("b", 5), ("c", 9)] range2) 1 =
          .ok retained2 ∧
        mapGet retained2 "b" = some 5 ∧ mapGet retained2 "a" = none) ∧
    NodupKeys [("a", 3), ("b", 2), ("c", 5)] ∧ (0 : Int) < 2 ∧
    FindMostRecentDeployments (SortHashMap [("a", 3), ("b", 2), ("c", 5)] id) 2 =
      .ok [("b", 2), ("a", 3)] ∧
    (∃ retained2,
      FindMostRecentDeployments (SortHashMap [("a", 3), ("b", 2), ("c", 5)] List.reverse) 2 =
        .ok retained2 ∧
      (∀ p, mapGet retained2 p = mapGet [("b", 2), ("a", 3)] p) ∧
      retained2.Perm [("b", 2), ("a", 3)]) := by
  have hsep : ∀ p q v, mapGet [("b", 2), ("a", 3)] p = some v →
      mapGet [("a", 3), ("b", 2), ("c", 5)] q = some v →
      mapGet [("b", 2), ("a", 3)] q = some v := by
    intro p q v hp hq
    have hp2 := mapGet_some_mem _ _ _ hp
    have hq2 := mapGet_some_mem _ _ _ hq
    simp only [List.mem_cons, Prod.mk.injEq, List.mem_nil_iff, or_false] at hp2 hq2
    rcases hp2 with ⟨rfl, rfl⟩ | ⟨rfl, rfl⟩ <;>
      rcases hq2 with ⟨rfl, hv⟩ | ⟨rfl, hv⟩ | ⟨rfl, hv⟩ <;>
      first
        | (exfalso; revert hv; decide)
        | decide
  exact ⟨by decide, fun m => List.Perm.refl m, by decide, by decide,
    (retained_depends_on_range_exactly_at_split_ties [("a", 5), ("b", 5), ("c", 9)] id 1
      [("a", 5)] (by decide) (fun m => List.Perm.refl m) (by decide) (by decide)).2.1
      "a" "b" 5 (by decide) (by decide) (by decide) (by decide),
    by decide, by decide, by decide,
    (retained_depends_on_range_exactly_at_split_ties [("a", 3), ("b", 2), ("c", 5)] id 2
      [("b", 2), ("a", 3)] (by decide) (fun m => List.Perm.refl m) (by decide)
      (by decide)).1 List.reverse (fun m => List.reverse_perm m) hsep⟩


end FindDeployments
